import Mathlib

/-!
Shallow embedding of the `matrix_compressor` library (sparse extraction,
archive records and the compression/decompression pipeline of
`src/sources/matrix_compressor.cpp`), with proofs of the spec-level
properties.

Modelling conventions:
* a C++ `float` is represented by its 32-bit pattern, a `Nat` below `2^32`;
  the IEEE comparison `x != 0` holds exactly when the pattern is neither
  `0x00000000` (+0.0) nor `0x80000000` (-0.0), while NaN patterns compare
  unequal to zero and are therefore kept by the extraction;
* `blaze::DynamicVector<float>` is a `List Nat` of patterns, and
  `blaze::DynamicMatrix<float>` is a row-major entry list together with
  its dimensions (`Mat` below), element `(i, j)` sitting at offset
  `i * cols + j`;
* machine-integer casts are explicit (`% 2^32` for `static_cast<uint32_t>`);
* thrown C++ exceptions become `Except Err`.

The two external codecs (streamvbyte for indexes, fpzip for values) are
not part of the repository; the concrete stand-ins below are modelled from
the spec contract (deterministic encode, exact-count decode, lossless
value coding), and the codec-facing adapters are additionally stated
parametrically in the codec so that adapter-level properties do not depend
on the stand-in.
-/

namespace MatrixCompressor

/-- Modulus of `uint32_t` arithmetic, `2^32`. -/
def U32 : Nat := 4294967296

/-- Bit pattern of IEEE-754 single-precision `-0.0`, `2^31`. -/
def NEG_ZERO : Nat := 2147483648

/-- IEEE comparison `x == 0.0f` on a 32-bit float pattern: true exactly for
the two zero patterns `+0.0` and `-0.0`; every other pattern (including
NaN) compares unequal to zero.  This is the test `vector[i] != 0` /
`matrix(i, j) != 0` of the source, negated. -/
def isZeroF (x : Nat) : Bool := x == 0 || x == NEG_ZERO

/-- Error kinds thrown by the pipeline: `std::invalid_argument` and the
codec failures (`std::runtime_error` in the source, `CodecError` in the
spec taxonomy). -/
inductive Err where
  | invalidArgument
  | codecError
  deriving DecidableEq

/-- Decidable equality of `Except` results, for concrete evaluation. -/
instance instDecEqExcept {ε α : Type} [DecidableEq ε] [DecidableEq α] :
    DecidableEq (Except ε α) := fun a b =>
  match a, b with
  | .error e, .error f =>
    if h : e = f then .isTrue (by rw [h]) else .isFalse (by intro hc; cases hc; exact h rfl)
  | .error _, .ok _ => .isFalse (by intro hc; cases hc)
  | .ok _, .error _ => .isFalse (by intro hc; cases hc)
  | .ok x, .ok y =>
    if h : x = y then .isTrue (by rw [h]) else .isFalse (by intro hc; cases hc; exact h rfl)

/-- Modelled from the spec: the vector archive record of §3 (`struct
ArchivedVector` lives in `matrix_compressor.h`, which is not among the
sources); field names follow the uses in `matrix_compressor.cpp`, field
meanings follow §3 (`nonzero` = nonzero_count, `size` = original_length,
`indexes`/`values` = the two compressed byte streams).  `{}` default
construction gives `is_valid = false` and empty/zero fields. -/
structure ArchivedVector where
  is_valid : Bool
  nonzero : Nat
  size : Nat
  indexes : List Nat
  values : List Nat
  deriving DecidableEq

/-- Modelled from the spec: the matrix archive record of §3 (`struct
ArchivedMatrix` of `matrix_compressor.h`), with the field names used by
`matrix_compressor.cpp`. -/
structure ArchivedMatrix where
  is_valid : Bool
  nonzero : Nat
  rows_number : Nat
  cols_number : Nat
  indexes : List Nat
  values : List Nat
  deriving DecidableEq

/-- Dense matrix: `blaze::DynamicMatrix<float>` as a row-major list of
32-bit float patterns with its dimensions. -/
structure Mat where
  rows : Nat
  cols : Nat
  entries : List Nat
  deriving DecidableEq

/-- Element access `matrix(i, j)`: row-major offset `i * cols + j`. -/
def Mat.entry (m : Mat) (i j : Nat) : Nat := m.entries.getD (i * m.cols + j) 0

/-! ### Modelled external codecs -/

/-- Little-endian 4-byte encoding of a 32-bit quantity. -/
def le4 (x : Nat) : List Nat := [x % 256, x / 256 % 256, x / 65536 % 256, x / 16777216 % 256]

/-- Reassemble a 32-bit quantity from four little-endian bytes. -/
def fromBytes4 (a b c d : Nat) : Nat := a + 256 * (b + 256 * (c + 256 * d))

/-- Read a 32-bit quantity from the front of a byte list. -/
def fromLe4 (l : List Nat) : Nat := fromBytes4 (l.getD 0 0) (l.getD 1 0) (l.getD 2 0) (l.getD 3 0)

/-- Decode a byte list as consecutive 4-byte little-endian words, dropping
a trailing incomplete group. -/
def decode4 : List Nat → List Nat
  | a :: b :: c :: d :: rest => fromBytes4 a b c d :: decode4 rest
  | _ => []

/-- Semantics of decoding into a caller-sized buffer: the buffer holds
exactly `n` slots, zero-initialized, and the decoder fills them from the
front. -/
def takePad (l : List Nat) (n : Nat) : List Nat := l.take n ++ List.replicate (n - l.length) 0

/-- Modelled from the spec: concrete stand-in for the external integer
codec's `streamvbyte_delta_encode` (§4.2).  The codec's internal algorithm
is out of scope; the contract requires only a deterministic encode whose
decode, given the exact element count out of band, restores the input.
The stand-in writes each `uint32` as four little-endian bytes. -/
def svbEncode (xs : List Nat) : List Nat := (xs.map le4).flatten

/-- Modelled from the spec: the matching `streamvbyte_delta_decode`
(§4.2); fills exactly `count` caller-provided slots. -/
def svbDecode (bytes : List Nat) (count : Nat) : List Nat := takePad (decode4 bytes) count

/-- Modelled from the spec: `fpzip_write_header` (§4.3).  The header
records the element count; its reported size is always positive. -/
def fpzipHeader (_precision : Int) (n : Nat) : List Nat := le4 n

/-- Modelled from the spec: `fpzip_write` payload (§4.3).  Precision `0`
is the lossless sentinel and must reproduce the input bit-exactly, so the
stand-in stores the raw 32-bit patterns; the trailing flush byte keeps the
reported size positive for any input, as required for the spec's
"always produces a valid archive" matrix path. -/
def fpzipPayload (_precision : Int) (values : List Nat) : List Nat := (values.map le4).flatten ++ [1]

/-- Modelled from the spec: `fpzip_read_header` plus `fpzip_read` — read
the element count from the header, then that many values from the
payload. -/
def fpzipDecode (bytes : List Nat) : List Nat :=
  (decode4 (bytes.drop 4)).take (fromLe4 (bytes.take 4))

/-! ### Codec adapters (`BlazeCompressor::Compress/Decompress{Indexes,Values}`) -/

/-- The `STREAMVBYTE_PADDING` constant added to the reported size in
`BlazeCompressor::CompressIndexes`. -/
def STREAMVBYTE_PADDING : Nat := 16

/-- `BlazeCompressor::CompressIndexes`, parametric in the codec's encode:
size a worst-case buffer (zero-initialized by `resize`), let the codec
write and report a size, add `STREAMVBYTE_PADDING`, trim the buffer to
that total and return it with the total.  The source contains no error
check on this path, so the adapter never fails. -/
def CompressIndexesWith (enc : List Nat → List Nat) (indexes : List Nat) :
    Except Err (List Nat × Nat) :=
  let body := enc indexes
  .ok (body ++ List.replicate STREAMVBYTE_PADDING 0, body.length + STREAMVBYTE_PADDING)

/-- `BlazeCompressor::CompressIndexes` with the modelled codec. -/
def CompressIndexes (indexes : List Nat) : Except Err (List Nat × Nat) :=
  CompressIndexesWith svbEncode indexes

/-- `BlazeCompressor::DecompressIndexes`: decode into a buffer of `count`
slots. -/
def DecompressIndexes (compressed : List Nat) (count : Nat) : List Nat :=
  svbDecode compressed count

/-- `BlazeCompressor::CompressValues`, parametric in the codec: write the
header, throw `CodecError` if its reported size `hs` is zero, write the
payload, throw `CodecError` if its reported size `ds` is zero, and trim
the buffer to exactly `hs + ds`. -/
def CompressValuesWith (hdrF : Int → Nat → List Nat) (dataF : Int → List Nat → List Nat)
    (values : List Nat) (precision : Int) : Except Err (List Nat × Nat) :=
  let hdr := hdrF precision values.length
  if hdr.length = 0 then .error .codecError
  else
    let payload := dataF precision values
    if payload.length = 0 then .error .codecError
    else .ok (hdr ++ payload, hdr.length + payload.length)

/-- `BlazeCompressor::CompressValues` with the modelled codec. -/
def CompressValues (values : List Nat) (precision : Int) : Except Err (List Nat × Nat) :=
  CompressValuesWith fpzipHeader fpzipPayload values precision

/-- `BlazeCompressor::DecompressValues`: decode into a buffer of `count`
slots. -/
def DecompressValues (compressed : List Nat) (count : Nat) : List Nat :=
  takePad (fpzipDecode compressed) count

/-! ### Dense-to-sparse converter -/

/-- The single scan of the vector compressor loop, carrying the running
position: keep `(position, value)` for every entry comparing nonzero. -/
def nzPairsFrom : Nat → List Nat → List (Nat × Nat)
  | _, [] => []
  | i, x :: t => if isZeroF x then nzPairsFrom (i + 1) t else (i, x) :: nzPairsFrom (i + 1) t

/-- The nested scan of `ConvertToCSR`: for each row `i` and column `j` in
order, keep `(i * cols + j, matrix(i, j))` when the element compares
nonzero. -/
def csrPairs (m : Mat) : List (Nat × Nat) :=
  ((List.range m.rows).map (fun i =>
    (List.range m.cols).filterMap (fun j =>
      if isZeroF (m.entry i j) then none else some (i * m.cols + j, m.entry i j)))).flatten

/-- `ConvertToCSR`: reject a zero dimension with `InvalidArgument`, else
return the linear indexes (cast through `uint32_t`) and the values of the
nonzero elements in row-major scan order. -/
def ConvertToCSR (m : Mat) : Except Err (List Nat × List Nat) :=
  if m.rows = 0 ∨ m.cols = 0 then .error .invalidArgument
  else .ok ((csrPairs m).map (fun p => p.1 % U32), (csrPairs m).map Prod.snd)

/-- `ConvertFromCSR`: allocate a zero-filled `rows_number × cols_number`
matrix and write `values[i]` at `(indexes[i] / cols, indexes[i] % cols)`
(row-major offset `row * cols + col`). -/
def ConvertFromCSR (indexes values : List Nat) (compressed : ArchivedMatrix) : Mat :=
  ⟨compressed.rows_number, compressed.cols_number,
    (indexes.zip values).foldl
      (fun e p =>
        e.set ((p.1 / compressed.cols_number) * compressed.cols_number
          + (p.1 % compressed.cols_number)) p.2)
      (List.replicate (compressed.rows_number * compressed.cols_number) 0)⟩

/-! ### Compressor facade -/

/-- `blaze::DynamicVector::nonZeros()`: the number of entries comparing
nonzero. -/
def nonZeros (v : List Nat) : Nat := v.countP (fun x => !(isZeroF x))

/-- `BlazeCompressor::Compress` (vector): return the default-constructed
sentinel archive for an empty or all-zero vector, else extract the
nonzero `(index, value)` pairs (indexes cast through `uint32_t`), run
both codec adapters and assemble
`{true, indexes.size(), vector.size(), compressed_indexes, compressed_values}`. -/
def CompressVector (v : List Nat) (precision : Int) : Except Err ArchivedVector :=
  if v.length = 0 then .ok ⟨false, 0, 0, [], []⟩
  else if nonZeros v = 0 then .ok ⟨false, 0, 0, [], []⟩
  else
    let ps := nzPairsFrom 0 v
    let indexes := ps.map (fun p => p.1 % U32)
    let values := ps.map Prod.snd
    match CompressIndexes indexes with
    | .error e => .error e
    | .ok (ci, _) =>
      match CompressValues values precision with
      | .error e => .error e
      | .ok (cv, _) => .ok ⟨true, indexes.length, v.length, ci, cv⟩

/-- `BlazeCompressor::Decompress` (vector): an invalid archive yields the
empty vector; otherwise decode `nonzero` indexes and values and scatter
them over a zero-filled vector of length `size`. -/
def DecompressVector (compressed : ArchivedVector) : List Nat :=
  if compressed.is_valid then
    let indexes := DecompressIndexes compressed.indexes compressed.nonzero
    let values := DecompressValues compressed.values compressed.nonzero
    (indexes.zip values).foldl (fun acc p => acc.set p.1 p.2)
      (List.replicate compressed.size 0)
  else []

/-- `BlazeCompressor::Compress` (matrix): convert to CSR (which rejects
zero dimensions), then run both codec adapters and assemble
`{true, values.size(), rows, columns, compressed_indexes, compressed_values}`. -/
def CompressMatrix (m : Mat) (precision : Int) : Except Err ArchivedMatrix :=
  match ConvertToCSR m with
  | .error e => .error e
  | .ok (indexes, values) =>
    match CompressIndexes indexes with
    | .error e => .error e
    | .ok (ci, _) =>
      match CompressValues values precision with
      | .error e => .error e
      | .ok (cv, _) => .ok ⟨true, values.length, m.rows, m.cols, ci, cv⟩

/-- `BlazeCompressor::Decompress` (matrix): an invalid archive throws
`InvalidArgument`; otherwise decode `nonzero` indexes and values and
rebuild the dense matrix through `ConvertFromCSR`. -/
def DecompressMatrix (compressed : ArchivedMatrix) : Except Err Mat :=
  if compressed.is_valid then
    .ok (ConvertFromCSR (DecompressIndexes compressed.indexes compressed.nonzero)
      (DecompressValues compressed.values compressed.nonzero) compressed)
  else .error .invalidArgument

/-! ### Spec-side comparison definitions -/

/-- Spec reading of "entries that are exactly (bit-pattern) nonzero": the
count of entries whose 32-bit pattern differs from `0x00000000`.  Stated
from the spec's words, for comparison with the count the code produces. -/
def specBitNonzeroCount (v : List Nat) : Nat := v.countP (fun x => !(x == 0))

/-- Spec description (§4.1) of the converter output: the `(row * C + col,
value)` pairs of the nonzero elements, scanned in row-major order with the
exact (no-epsilon) zero test.  Stated from the spec's words, for
comparison with `csrPairs`. -/
def rowMajorNonzeroPairs (R C : Nat) (f : Nat → Nat → Nat) : List (Nat × Nat) :=
  ((List.range R).map (fun i =>
    (List.range C).filterMap (fun j =>
      if isZeroF (f i j) then none else some (i * C + j, f i j)))).flatten

/-! ### Codec round-trip lemmas -/

lemma fromBytes4_le4 (x : Nat) :
    fromBytes4 (x % 256) (x / 256 % 256) (x / 65536 % 256) (x / 16777216 % 256) = x % U32 := by
  simp only [fromBytes4, U32]
  omega

lemma decode4_le4_append (x : Nat) (r : List Nat) :
    decode4 (le4 x ++ r) = x % U32 :: decode4 r := by
  simp [le4, decode4, fromBytes4_le4]

lemma map_mod_U32_eq_self (xs : List Nat) (h : ∀ x ∈ xs, x < U32) :
    xs.map (· % U32) = xs := by
  have heq : xs.map (· % U32) = xs.map id :=
    List.map_congr_left (fun a ha => Nat.mod_eq_of_lt (h a ha))
  rw [heq, List.map_id]

lemma decode4_flatten_le4 (xs : List Nat) (r : List Nat) :
    decode4 ((xs.map le4).flatten ++ r) = xs.map (· % U32) ++ decode4 r := by
  induction xs with
  | nil => simp
  | cons x t ih => simp [List.append_assoc, decode4_le4_append, ih]

lemma length_le4 (x : Nat) : (le4 x).length = 4 := by simp [le4]

lemma length_flatten_le4 (xs : List Nat) : ((xs.map le4).flatten).length = 4 * xs.length := by
  induction xs with
  | nil => simp
  | cons x t ih => simp [le4, ih]; omega

lemma fromLe4_le4_append (n : Nat) (r : List Nat) : fromLe4 ((le4 n ++ r).take 4) = n % U32 := by
  simp only [le4, List.cons_append, List.nil_append, List.take_succ_cons, List.take_zero]
  simp only [fromLe4, List.getD_cons_zero, List.getD_cons_succ]
  exact fromBytes4_le4 n

/-- Round trip of the modelled index codec through the adapters: decoding
the adapter's output with the original count restores the indexes,
provided each fits in 32 bits. -/
lemma DecompressIndexes_roundtrip (xs : List Nat) (h : ∀ x ∈ xs, x < U32) :
    DecompressIndexes (svbEncode xs ++ List.replicate STREAMVBYTE_PADDING 0) xs.length
      = xs := by
  have hdec : decode4 (svbEncode xs ++ List.replicate STREAMVBYTE_PADDING 0)
      = xs.map (· % U32) ++ [0, 0, 0, 0] := by
    rw [svbEncode, decode4_flatten_le4]
    congr 1
  have hmap : xs.map (· % U32) = xs := map_mod_U32_eq_self xs h
  simp only [DecompressIndexes, svbDecode, takePad, hdec, hmap]
  have hlen : xs.length ≤ (xs ++ [0, 0, 0, 0]).length := by simp
  rw [List.take_append_of_le_length (by simp), List.take_length]
  simp

/-- Round trip of the modelled value codec through the adapters: decoding
the header-plus-payload stream with the original count restores the
values, provided each fits in 32 bits and the count does. -/
lemma DecompressValues_roundtrip (vs : List Nat) (p : Int) (h : ∀ x ∈ vs, x < U32)
    (hn : vs.length < U32) :
    DecompressValues (fpzipHeader p vs.length ++ fpzipPayload p vs) vs.length = vs := by
  have hmap : vs.map (· % U32) = vs := map_mod_U32_eq_self vs h
  have htake : fromLe4 ((le4 vs.length ++ ((vs.map le4).flatten ++ [1])).take 4)
      = vs.length := by
    rw [fromLe4_le4_append]
    exact Nat.mod_eq_of_lt hn
  have hdrop : (le4 vs.length ++ ((vs.map le4).flatten ++ [1])).drop 4
      = (vs.map le4).flatten ++ [1] := by
    have h4 : (le4 vs.length).length = 4 := length_le4 _
    rw [← h4, List.drop_left]
  simp only [DecompressValues, fpzipDecode, fpzipHeader, fpzipPayload, htake, hdrop, takePad]
  have hdec : decode4 ((vs.map le4).flatten ++ [1]) = vs := by
    rw [decode4_flatten_le4, hmap]
    simp [decode4]
  rw [hdec, List.take_length]
  simp

/-! ### Facts about the nonzero-pair scan -/

lemma nzPairsFrom_fst_bounds : ∀ (v : List Nat) (n : Nat) (p : Nat × Nat),
    p ∈ nzPairsFrom n v → n ≤ p.1 ∧ p.1 < n + v.length := by
  intro v
  induction v with
  | nil => intro n p hp; simp [nzPairsFrom] at hp
  | cons x t ih =>
    intro n p hp
    simp only [nzPairsFrom] at hp
    by_cases hz : isZeroF x
    · rw [if_pos hz] at hp
      have := ih (n + 1) p hp
      constructor
      · omega
      · simpa [Nat.add_comm, Nat.add_assoc, Nat.add_left_comm] using this.2
    · rw [if_neg hz] at hp
      rcases List.mem_cons.1 hp with h | h
      · subst h; simp
      · have := ih (n + 1) p h
        constructor
        · omega
        · have h2 := this.2
          simp only [List.length_cons]
          omega

lemma nzPairsFrom_snd_mem : ∀ (v : List Nat) (n : Nat) (p : Nat × Nat),
    p ∈ nzPairsFrom n v → p.2 ∈ v := by
  intro v
  induction v with
  | nil => intro n p hp; simp [nzPairsFrom] at hp
  | cons x t ih =>
    intro n p hp
    simp only [nzPairsFrom] at hp
    by_cases hz : isZeroF x
    · rw [if_pos hz] at hp
      exact List.mem_cons_of_mem x (ih (n + 1) p hp)
    · rw [if_neg hz] at hp
      rcases List.mem_cons.1 hp with h | h
      · subst h; simp
      · exact List.mem_cons_of_mem x (ih (n + 1) p h)

lemma nzPairsFrom_length : ∀ (v : List Nat) (n : Nat),
    (nzPairsFrom n v).length = v.countP (fun x => !(isZeroF x)) := by
  intro v
  induction v with
  | nil => intro n; simp [nzPairsFrom]
  | cons x t ih =>
    intro n
    simp only [nzPairsFrom, List.countP_cons]
    by_cases hz : isZeroF x
    · rw [if_pos hz]
      simp [hz, ih]
    · rw [if_neg hz]
      simp [hz, ih]

lemma nzPairsFrom_pairwise : ∀ (v : List Nat) (n : Nat),
    List.Pairwise (fun p q => p.1 < q.1) (nzPairsFrom n v) := by
  intro v
  induction v with
  | nil => intro n; simp [nzPairsFrom]
  | cons x t ih =>
    intro n
    simp only [nzPairsFrom]
    by_cases hz : isZeroF x
    · rw [if_pos hz]; exact ih (n + 1)
    · rw [if_neg hz]
      refine List.Pairwise.cons ?_ (ih (n + 1))
      intro q hq
      have := (nzPairsFrom_fst_bounds t (n + 1) q hq).1
      omega

lemma set_append_length (pre l : List Nat) (x y : Nat) :
    (pre ++ y :: l).set pre.length x = pre ++ x :: l := by
  simp [List.set_append]

/-- The scatter loop of vector decompression, applied to the nonzero
pairs of `v` starting at offset `pre.length`, rebuilds `v` behind `pre` —
provided no entry of `v` is a negative zero (the loop leaves untouched
slots at `+0.0`). -/
lemma scatter_nzPairs : ∀ (v pre : List Nat), (∀ x ∈ v, x ≠ NEG_ZERO) →
    (nzPairsFrom pre.length v).foldl (fun acc p => acc.set p.1 p.2)
      (pre ++ List.replicate v.length 0) = pre ++ v := by
  intro v
  induction v with
  | nil => intro pre _; simp [nzPairsFrom]
  | cons x t ih =>
    intro pre hneg
    simp only [nzPairsFrom, List.length_cons, List.replicate_succ]
    by_cases hz : isZeroF x
    · rw [if_pos hz]
      have hx0 : x = 0 := by
        have hxne : x ≠ NEG_ZERO := hneg x (List.mem_cons_self x t)
        simp only [isZeroF, Bool.or_eq_true, beq_iff_eq] at hz
        rcases hz with h | h
        · exact h
        · exact absurd h hxne
      have hpre : pre ++ 0 :: List.replicate t.length 0
          = (pre ++ [0]) ++ List.replicate t.length 0 := by simp
      have hlen : pre.length + 1 = (pre ++ [(0 : Nat)]).length := by simp
      rw [hpre, hlen, ih (pre ++ [0]) (fun y hy => hneg y (List.mem_cons_of_mem x hy))]
      simp [hx0]
    · rw [if_neg hz]
      simp only [List.foldl_cons]
      rw [set_append_length]
      have hpre : pre ++ x :: List.replicate t.length 0
          = (pre ++ [x]) ++ List.replicate t.length 0 := by simp
      have hlen : pre.length + 1 = (pre ++ [x]).length := by simp
      rw [hpre, hlen, ih (pre ++ [x]) (fun y hy => hneg y (List.mem_cons_of_mem x hy))]
      simp

/-! ### Bridging the nested matrix scan and the linear scan -/

lemma nzPairsFrom_eq_filterMap : ∀ (t : List Nat) (n : Nat),
    nzPairsFrom n t = (List.range t.length).filterMap (fun k =>
      if isZeroF (t.getD k 0) then none else some (n + k, t.getD k 0)) := by
  intro t
  induction t with
  | nil => intro n; simp [nzPairsFrom]
  | cons x t ih =>
    intro n
    have hr : List.range (x :: t).length = 0 :: (List.range t.length).map Nat.succ := by
      simp [List.range_succ_eq_map]
    have hcomp : ((fun k => if isZeroF ((x :: t).getD k 0) then none
        else some (n + k, (x :: t).getD k 0)) ∘ Nat.succ)
        = (fun k => if isZeroF (t.getD k 0) then none else some (n + 1 + k, t.getD k 0)) := by
      funext k
      simp only [Function.comp_apply, Nat.succ_eq_add_one, List.getD_cons_succ]
      by_cases hk : isZeroF (t.getD k 0)
      · simp only [hk, if_true]
      · simp only [hk, Bool.false_eq_true, if_false, Option.some.injEq, Prod.mk.injEq,
          and_true]
        omega
    by_cases hz : isZeroF x
    · have hstep : (List.range (x :: t).length).filterMap (fun k =>
          if isZeroF ((x :: t).getD k 0) then none else some (n + k, (x :: t).getD k 0))
          = List.filterMap ((fun k => if isZeroF ((x :: t).getD k 0) then none
              else some (n + k, (x :: t).getD k 0)) ∘ Nat.succ) (List.range t.length) := by
        rw [hr]
        simp [List.filterMap_cons, hz, List.filterMap_map]
      rw [hstep, hcomp]
      simp only [nzPairsFrom, if_pos hz]
      exact ih (n + 1)
    · have hstep : (List.range (x :: t).length).filterMap (fun k =>
          if isZeroF ((x :: t).getD k 0) then none else some (n + k, (x :: t).getD k 0))
          = (n, x) :: List.filterMap ((fun k => if isZeroF ((x :: t).getD k 0) then none
              else some (n + k, (x :: t).getD k 0)) ∘ Nat.succ) (List.range t.length) := by
        rw [hr]
        simp [List.filterMap_cons, hz, List.filterMap_map]
      rw [hstep, hcomp]
      simp only [nzPairsFrom, if_neg hz]
      rw [ih (n + 1)]

lemma range_mul_flatten : ∀ (R C : Nat),
    ((List.range R).map (fun i => (List.range C).map (fun j => i * C + j))).flatten
      = List.range (R * C) := by
  intro R C
  induction R with
  | zero => simp
  | succ r ih =>
    rw [List.range_succ, List.map_append, List.flatten_append, ih]
    simp only [List.map_cons, List.map_nil, List.flatten_cons, List.flatten_nil, List.append_nil]
    rw [Nat.succ_mul, List.range_add]

/-- With a well-formed row-major entry list, the nested scan of
`ConvertToCSR` is the linear scan of the entries. -/
lemma csrPairs_eq_nzPairs (m : Mat) (hlen : m.entries.length = m.rows * m.cols) :
    csrPairs m = nzPairsFrom 0 m.entries := by
  have h1 : ∀ i, (List.range m.cols).filterMap (fun j =>
      if isZeroF (m.entry i j) then none else some (i * m.cols + j, m.entry i j))
      = ((List.range m.cols).map (fun j => i * m.cols + j)).filterMap (fun k =>
          if isZeroF (m.entries.getD k 0) then none else some (k, m.entries.getD k 0)) := by
    intro i
    have hfun : ((fun k => if isZeroF (m.entries.getD k 0) then none
        else some (k, m.entries.getD k 0)) ∘ (fun j => i * m.cols + j))
        = (fun j => if isZeroF (m.entry i j) then none
            else some (i * m.cols + j, m.entry i j)) := by
      funext j
      simp [Function.comp, Mat.entry]
    rw [List.filterMap_map, hfun]
  have h2 : csrPairs m = (((List.range m.rows).map (fun i =>
      (List.range m.cols).map (fun j => i * m.cols + j))).flatten).filterMap (fun k =>
        if isZeroF (m.entries.getD k 0) then none else some (k, m.entries.getD k 0)) := by
    rw [List.filterMap_flatten, List.map_map]
    simp only [csrPairs]
    congr 1
    apply List.map_congr_left
    intro i _
    exact h1 i
  rw [h2, range_mul_flatten, nzPairsFrom_eq_filterMap, hlen]
  congr 1
  funext k
  simp

lemma csrPairs_fst_lt (m : Mat) :
    ∀ p ∈ csrPairs m, p.1 < m.rows * m.cols := by
  intro p hp
  simp only [csrPairs, List.mem_flatten, List.mem_map] at hp
  obtain ⟨l, ⟨i, hi, rfl⟩, hpl⟩ := hp
  simp only [List.mem_filterMap, List.mem_range] at hpl
  obtain ⟨j, hj, hpj⟩ := hpl
  have hi' : i < m.rows := List.mem_range.1 hi
  by_cases hz : isZeroF (m.entry i j)
  · simp [hz] at hpj
  · simp only [hz, Bool.false_eq_true, if_false, Option.some.injEq] at hpj
    have hp1 : p.1 = i * m.cols + j := by rw [← hpj]
    rw [hp1]
    calc i * m.cols + j < i * m.cols + m.cols := by omega
    _ = (i + 1) * m.cols := by ring
    _ ≤ m.rows * m.cols := Nat.mul_le_mul_right _ (by omega)

/-! ### Characterizations of the pipeline branches -/

lemma CompressIndexes_ok (xs : List Nat) :
    CompressIndexes xs = .ok (svbEncode xs ++ List.replicate STREAMVBYTE_PADDING 0,
      (svbEncode xs).length + STREAMVBYTE_PADDING) := rfl

lemma CompressValues_ok (vs : List Nat) (p : Int) :
    CompressValues vs p = .ok (fpzipHeader p vs.length ++ fpzipPayload p vs,
      (fpzipHeader p vs.length).length + (fpzipPayload p vs).length) := by
  have hh : (fpzipHeader p vs.length).length ≠ 0 := by simp [fpzipHeader, le4]
  have hd : (fpzipPayload p vs).length ≠ 0 := by simp [fpzipPayload]
  simp only [CompressValues, CompressValuesWith, if_neg hh, if_neg hd]

lemma ConvertToCSR_ok (m : Mat) (hr : m.rows ≠ 0) (hc : m.cols ≠ 0) :
    ConvertToCSR m
      = .ok ((csrPairs m).map (fun p => p.1 % U32), (csrPairs m).map Prod.snd) := by
  have h : ¬(m.rows = 0 ∨ m.cols = 0) := by
    intro hcon
    rcases hcon with h1 | h1
    · exact hr h1
    · exact hc h1
  simp only [ConvertToCSR, if_neg h]

lemma CompressVector_sentinel (v : List Nat) (p : Int)
    (h : v.length = 0 ∨ nonZeros v = 0) :
    CompressVector v p = .ok ⟨false, 0, 0, [], []⟩ := by
  rcases h with h | h
  · simp [CompressVector, h]
  · by_cases h0 : v.length = 0
    · simp [CompressVector, h0]
    · simp [CompressVector, h0, h]

lemma CompressVector_ok (v : List Nat) (p : Int) (hne : v.length ≠ 0)
    (hnz : nonZeros v ≠ 0) :
    CompressVector v p = .ok ⟨true, (nzPairsFrom 0 v).length, v.length,
      svbEncode ((nzPairsFrom 0 v).map (fun q => q.1 % U32))
        ++ List.replicate STREAMVBYTE_PADDING 0,
      fpzipHeader p (nzPairsFrom 0 v).length
        ++ fpzipPayload p ((nzPairsFrom 0 v).map Prod.snd)⟩ := by
  rw [CompressVector, if_neg hne, if_neg hnz]
  simp only [CompressIndexes_ok, CompressValues_ok, List.length_map]

lemma CompressMatrix_ok (m : Mat) (p : Int) (hr : m.rows ≠ 0) (hc : m.cols ≠ 0) :
    CompressMatrix m p = .ok ⟨true, (csrPairs m).length, m.rows, m.cols,
      svbEncode ((csrPairs m).map (fun q => q.1 % U32))
        ++ List.replicate STREAMVBYTE_PADDING 0,
      fpzipHeader p (csrPairs m).length
        ++ fpzipPayload p ((csrPairs m).map Prod.snd)⟩ := by
  rw [CompressMatrix, ConvertToCSR_ok m hr hc]
  simp only [CompressIndexes_ok, CompressValues_ok, List.length_map]

lemma CompressMatrix_err (m : Mat) (p : Int) (h : m.rows = 0 ∨ m.cols = 0) :
    CompressMatrix m p = .error .invalidArgument := by
  rw [CompressMatrix, ConvertToCSR, if_pos h]

/-- Unfolding of vector decompression on a valid archive literal. -/
lemma DecompressVector_mk (nz sz : Nat) (ci cv : List Nat) :
    DecompressVector ⟨true, nz, sz, ci, cv⟩
      = ((DecompressIndexes ci nz).zip (DecompressValues cv nz)).foldl
          (fun acc p => acc.set p.1 p.2) (List.replicate sz 0) := rfl

/-! ### The claims -/

/-- C1, counterexample: the round trip is not bit-exact for every dense
vector.  The length-1 all-zero vector compresses to the invalid sentinel
archive, and decompressing that archive yields the empty vector, not the
original length-1 vector. -/
theorem C1_counterexample :
    (CompressVector [0] 0).map DecompressVector = .ok []
      ∧ ([] : List Nat) ≠ [0] := by
  constructor
  · rfl
  · decide

/-- C1 (amended): for every dense float vector of length below `2^32`
whose entries contain no negative-zero pattern, and which is empty or has
at least one entry comparing nonzero, decompressing the archive produced
by compressing at lossless precision 0 returns a vector bit-exactly equal
to the input.  (The counterexample forces the nonzero-entry condition: an
all-zero vector compresses to the sentinel and decompresses to the empty
vector.  A negative zero is likewise dropped by the `!= 0` test and
rebuilt as `+0.0`, and positions are truncated to 32 bits, so those two
exclusions are forced as well.) -/
theorem C1_lossless_vector_round_trip (v : List Nat) (a : ArchivedVector)
    (hlen : v.length < U32) (hpat : ∀ x ∈ v, x < U32)
    (hneg : ∀ x ∈ v, x ≠ NEG_ZERO)
    (hnz : v = [] ∨ ∃ x ∈ v, isZeroF x = false)
    (h : CompressVector v 0 = .ok a) :
    DecompressVector a = v := by
  rcases hnz with hnil | ⟨x, hx, hxz⟩
  · subst hnil
    rw [CompressVector_sentinel [] 0 (Or.inl rfl)] at h
    simp only [Except.ok.injEq] at h
    subst h
    rfl
  · have hne : v.length ≠ 0 := by
      have hv := List.ne_nil_of_mem hx
      simp only [ne_eq, List.length_eq_zero]
      exact hv
    have hnzc : nonZeros v ≠ 0 := by
      intro hcon
      have hall := (List.countP_eq_zero.1 hcon) x hx
      simp [hxz] at hall
    rw [CompressVector_ok v 0 hne hnzc] at h
    simp only [Except.ok.injEq] at h
    subst h
    have hidxlt : ∀ y ∈ (nzPairsFrom 0 v).map (fun q => q.1 % U32), y < U32 := by
      intro y hy
      simp only [List.mem_map] at hy
      obtain ⟨q, _, rfl⟩ := hy
      exact Nat.mod_lt _ (by norm_num [U32])
    have h1 : DecompressIndexes (svbEncode ((nzPairsFrom 0 v).map (fun q => q.1 % U32))
        ++ List.replicate STREAMVBYTE_PADDING 0)
        ((nzPairsFrom 0 v).map (fun q => q.1 % U32)).length
        = (nzPairsFrom 0 v).map (fun q => q.1 % U32) :=
      DecompressIndexes_roundtrip _ hidxlt
    rw [List.length_map] at h1
    have hvlt : ∀ y ∈ (nzPairsFrom 0 v).map Prod.snd, y < U32 := by
      intro y hy
      simp only [List.mem_map] at hy
      obtain ⟨q, hq, rfl⟩ := hy
      exact hpat _ (nzPairsFrom_snd_mem v 0 q hq)
    have hvcnt : ((nzPairsFrom 0 v).map Prod.snd).length < U32 := by
      rw [List.length_map]
      calc (nzPairsFrom 0 v).length
          = v.countP (fun y => !(isZeroF y)) := nzPairsFrom_length v 0
        _ ≤ v.length := List.countP_le_length _
        _ < U32 := hlen
    have h2 : DecompressValues (fpzipHeader 0 ((nzPairsFrom 0 v).map Prod.snd).length
        ++ fpzipPayload 0 ((nzPairsFrom 0 v).map Prod.snd))
        ((nzPairsFrom 0 v).map Prod.snd).length
        = (nzPairsFrom 0 v).map Prod.snd :=
      DecompressValues_roundtrip _ 0 hvlt hvcnt
    rw [List.length_map] at h2
    rw [DecompressVector_mk, h1, h2]
    have hcast : (nzPairsFrom 0 v).map (fun q => q.1 % U32)
        = (nzPairsFrom 0 v).map Prod.fst := by
      apply List.map_congr_left
      intro q hq
      have hb := (nzPairsFrom_fst_bounds v 0 q hq).2
      have hu : U32 = 4294967296 := rfl
      apply Nat.mod_eq_of_lt
      omega
    rw [hcast, List.zip_map']
    have heta : (nzPairsFrom 0 v).map (fun q => (q.1, q.2)) = nzPairsFrom 0 v := by
      simp
    rw [heta]
    have hsc := scatter_nzPairs v [] hneg
    simpa using hsc

/-- Witness for C1 at the concrete vector `[1.0f, 0.0f]`. -/
theorem C1_witness :
    DecompressVector ⟨true, 1, 2, List.replicate 20 0, [1, 0, 0, 0, 0, 0, 128, 63, 1]⟩
      = [1065353216, 0] :=
  C1_lossless_vector_round_trip [1065353216, 0]
    ⟨true, 1, 2, List.replicate 20 0, [1, 0, 0, 0, 0, 0, 128, 63, 1]⟩
    (by decide) (by decide) (by decide)
    (Or.inr ⟨1065353216, by decide, by decide⟩) (by decide)

/-- C2: decompressing any invalid vector archive silently succeeds with
the empty vector, while decompressing any invalid matrix archive fails
with `InvalidArgument` — the deliberate asymmetry. -/
theorem C2_invalid_archive_asymmetry (a : ArchivedVector) (b : ArchivedMatrix)
    (ha : a.is_valid = false) (hb : b.is_valid = false) :
    DecompressVector a = [] ∧ DecompressMatrix b = .error .invalidArgument := by
  constructor
  · simp [DecompressVector, ha]
  · simp [DecompressMatrix, hb]

/-- Witness for C2 at concrete invalid archives with junk payloads. -/
theorem C2_witness :
    DecompressVector ⟨false, 3, 5, [1, 2], [3]⟩ = []
      ∧ DecompressMatrix ⟨false, 3, 5, 7, [1], [2]⟩ = .error .invalidArgument :=
  C2_invalid_archive_asymmetry ⟨false, 3, 5, [1, 2], [3]⟩ ⟨false, 3, 5, 7, [1], [2]⟩ rfl rfl

/-- C3: compressing a zero-length or all-zero vector returns (not throws)
the sentinel archive — `is_valid = false`, all other fields default/empty
— and decompressing that sentinel returns the zero-length vector. -/
theorem C3_empty_vector_sentinel (v : List Nat) (p : Int)
    (h : v.length = 0 ∨ nonZeros v = 0) :
    CompressVector v p = .ok ⟨false, 0, 0, [], []⟩
      ∧ DecompressVector ⟨false, 0, 0, [], []⟩ = [] :=
  ⟨CompressVector_sentinel v p h, rfl⟩

/-- Witness for C3 at the all-zero vector `[0.0f, 0.0f]` (length 2, so
only the all-zero branch fires). -/
theorem C3_witness :
    CompressVector [0, 0] 2 = .ok ⟨false, 0, 0, [], []⟩
      ∧ DecompressVector ⟨false, 0, 0, [], []⟩ = [] :=
  C3_empty_vector_sentinel [0, 0] 2 (Or.inr (by decide))

/-- C4: compressing a matrix with zero rows or zero columns fails with
`InvalidArgument`; with both dimensions nonzero, compression succeeds
(no error) and the produced archive has `is_valid = true`. -/
theorem C4_zero_dimension_rejection (m : Mat) (p : Int) :
    (m.rows = 0 ∨ m.cols = 0 → CompressMatrix m p = .error .invalidArgument)
      ∧ (m.rows ≠ 0 → m.cols ≠ 0 →
          (CompressMatrix m p).map (fun a => a.is_valid) = .ok true) := by
  constructor
  · intro h
    exact CompressMatrix_err m p h
  · intro hr hc
    rw [CompressMatrix_ok m p hr hc]
    rfl

/-- Witness for C4: a 0×5 matrix is rejected; an all-zero 1×1 matrix (and
any nonzero-dimension matrix) compresses to a valid archive. -/
theorem C4_witness :
    CompressMatrix ⟨0, 5, []⟩ 0 = .error .invalidArgument
      ∧ (CompressMatrix ⟨1, 1, [0]⟩ 0).map (fun a => a.is_valid) = .ok true :=
  ⟨(C4_zero_dimension_rejection ⟨0, 5, []⟩ 0).1 (Or.inl rfl),
   (C4_zero_dimension_rejection ⟨1, 1, [0]⟩ 0).2 (by decide) (by decide)⟩

/-- C5, counterexample: `nonzero_count` does not count bit-pattern-nonzero
entries.  The 1×1 matrix holding a single `-0.0` (pattern `0x80000000`,
bit-pattern nonzero) compresses to an archive with `nonzero_count = 0`,
because the extraction tests IEEE comparison `!= 0`, under which `-0.0`
equals zero. -/
theorem C5_counterexample :
    (CompressMatrix ⟨1, 1, [NEG_ZERO]⟩ 0).map (fun a => a.nonzero) = .ok 0
      ∧ specBitNonzeroCount [NEG_ZERO] = 1 ∧ (0 : Nat) ≠ 1 :=
  ⟨rfl, rfl, by decide⟩

/-- C5 (amended): in every produced archive, `nonzero_count` equals the
number of source entries that compare nonzero under IEEE comparison
(pattern neither `+0.0` nor `-0.0`) — not the number of bit-pattern
nonzero entries, since `-0.0` compares equal to zero and is dropped — and
`nonzero_count` is at most the total element count. -/
theorem C5_nonzero_count_fidelity :
    (∀ (v : List Nat) (p : Int) (a : ArchivedVector), CompressVector v p = .ok a →
      a.nonzero = v.countP (fun x => !(isZeroF x)) ∧ a.nonzero ≤ v.length)
    ∧ (∀ (m : Mat) (p : Int) (b : ArchivedMatrix),
        m.entries.length = m.rows * m.cols → CompressMatrix m p = .ok b →
        b.nonzero = m.entries.countP (fun x => !(isZeroF x))
          ∧ b.nonzero ≤ m.rows * m.cols) := by
  constructor
  · intro v p a h
    by_cases h0 : v.length = 0
    · rw [CompressVector_sentinel v p (Or.inl h0)] at h
      simp only [Except.ok.injEq] at h
      subst h
      have hv : v = [] := List.length_eq_zero.1 h0
      subst hv
      exact ⟨rfl, by simp⟩
    · by_cases h1 : nonZeros v = 0
      · rw [CompressVector_sentinel v p (Or.inr h1)] at h
        simp only [Except.ok.injEq] at h
        subst h
        exact ⟨h1.symm, by simp⟩
      · rw [CompressVector_ok v p h0 h1] at h
        simp only [Except.ok.injEq] at h
        subst h
        constructor
        · show (nzPairsFrom 0 v).length = v.countP (fun x => !(isZeroF x))
          exact nzPairsFrom_length v 0
        · show (nzPairsFrom 0 v).length ≤ v.length
          rw [nzPairsFrom_length]
          exact List.countP_le_length _
  · intro m p b hlen h
    by_cases hr : m.rows = 0
    · rw [CompressMatrix_err m p (Or.inl hr)] at h
      exact Except.noConfusion h
    · by_cases hc : m.cols = 0
      · rw [CompressMatrix_err m p (Or.inr hc)] at h
        exact Except.noConfusion h
      · rw [CompressMatrix_ok m p hr hc] at h
        simp only [Except.ok.injEq] at h
        subst h
        constructor
        · show (csrPairs m).length = m.entries.countP (fun x => !(isZeroF x))
          rw [csrPairs_eq_nzPairs m hlen, nzPairsFrom_length]
        · show (csrPairs m).length ≤ m.rows * m.cols
          rw [csrPairs_eq_nzPairs m hlen, nzPairsFrom_length, ← hlen]
          exact List.countP_le_length _

/-- Witness for C5 at the vector `[1.0f, 0.0f]` and the matrix
`[[1.0f, 0.0f], [0.0f, 2.0f]]`. -/
theorem C5_witness :
    ((⟨true, 1, 2, List.replicate 20 0, [1, 0, 0, 0, 0, 0, 128, 63, 1]⟩ :
        ArchivedVector).nonzero = [1065353216, 0].countP (fun x => !(isZeroF x))
      ∧ (⟨true, 1, 2, List.replicate 20 0, [1, 0, 0, 0, 0, 0, 128, 63, 1]⟩ :
        ArchivedVector).nonzero ≤ [1065353216, 0].length)
    ∧ ((⟨true, 2, 2, 2, [0, 0, 0, 0, 3, 0, 0, 0] ++ List.replicate 16 0,
        [2, 0, 0, 0, 0, 0, 128, 63, 0, 0, 0, 64, 1]⟩ : ArchivedMatrix).nonzero
          = [1065353216, 0, 0, 1073741824].countP (fun x => !(isZeroF x))
      ∧ (⟨true, 2, 2, 2, [0, 0, 0, 0, 3, 0, 0, 0] ++ List.replicate 16 0,
        [2, 0, 0, 0, 0, 0, 128, 63, 0, 0, 0, 64, 1]⟩ : ArchivedMatrix).nonzero
          ≤ 2 * 2) :=
  ⟨C5_nonzero_count_fidelity.1 [1065353216, 0] 0 _ (by decide),
   C5_nonzero_count_fidelity.2 ⟨2, 2, [1065353216, 0, 0, 1073741824]⟩ 0 _
     (by decide) (by decide)⟩

/-- C7, counterexample: the stored index stream is not exactly the
codec-reported length.  For the vector `[1.0f]` the modelled codec
reports 4 written bytes for the single index, but the archive's
`compressed_indexes` holds 20 bytes — the source adds
`STREAMVBYTE_PADDING` (16) to the codec-reported size before trimming. -/
theorem C7_counterexample :
    (CompressVector [1065353216] 0).map (fun a => a.indexes.length) = .ok 20
      ∧ (svbEncode [0]).length = 4 ∧ (20 : Nat) ≠ 4 :=
  ⟨rfl, rfl, by decide⟩

/-- C7 (amended): in every produced archive, `compressed_values` has
exactly the codec-reported length (header plus payload, nothing else),
but `compressed_indexes` has the codec-reported length **plus
`STREAMVBYTE_PADDING` (16)** — the index adapter adds the padding
constant to the reported size before trimming. -/
theorem C7_codec_reported_lengths :
    (∀ (v : List Nat) (p : Int) (a : ArchivedVector), CompressVector v p = .ok a →
      a.is_valid = true →
      a.indexes.length
          = (svbEncode ((nzPairsFrom 0 v).map (fun q => q.1 % U32))).length
            + STREAMVBYTE_PADDING
        ∧ a.values.length
          = (fpzipHeader p (nzPairsFrom 0 v).length).length
            + (fpzipPayload p ((nzPairsFrom 0 v).map Prod.snd)).length)
    ∧ (∀ (m : Mat) (p : Int) (b : ArchivedMatrix), CompressMatrix m p = .ok b →
        b.indexes.length
            = (svbEncode ((csrPairs m).map (fun q => q.1 % U32))).length
              + STREAMVBYTE_PADDING
          ∧ b.values.length
            = (fpzipHeader p (csrPairs m).length).length
              + (fpzipPayload p ((csrPairs m).map Prod.snd)).length) := by
  constructor
  · intro v p a h hvalid
    by_cases h0 : v.length = 0
    · rw [CompressVector_sentinel v p (Or.inl h0)] at h
      simp only [Except.ok.injEq] at h
      subst h
      simp at hvalid
    · by_cases h1 : nonZeros v = 0
      · rw [CompressVector_sentinel v p (Or.inr h1)] at h
        simp only [Except.ok.injEq] at h
        subst h
        simp at hvalid
      · rw [CompressVector_ok v p h0 h1] at h
        simp only [Except.ok.injEq] at h
        subst h
        constructor
        · show (svbEncode ((nzPairsFrom 0 v).map (fun q : Nat × Nat => q.1 % U32))
              ++ List.replicate STREAMVBYTE_PADDING 0).length = _
          simp [List.length_append]
        · show (fpzipHeader p (nzPairsFrom 0 v).length
              ++ fpzipPayload p ((nzPairsFrom 0 v).map Prod.snd)).length = _
          simp [List.length_append]
  · intro m p b h
    by_cases hr : m.rows = 0
    · rw [CompressMatrix_err m p (Or.inl hr)] at h
      exact Except.noConfusion h
    · by_cases hc : m.cols = 0
      · rw [CompressMatrix_err m p (Or.inr hc)] at h
        exact Except.noConfusion h
      · rw [CompressMatrix_ok m p hr hc] at h
        simp only [Except.ok.injEq] at h
        subst h
        constructor
        · show (svbEncode ((csrPairs m).map (fun q : Nat × Nat => q.1 % U32))
              ++ List.replicate STREAMVBYTE_PADDING 0).length = _
          simp [List.length_append]
        · show (fpzipHeader p (csrPairs m).length
              ++ fpzipPayload p ((csrPairs m).map Prod.snd)).length = _
          simp [List.length_append]

/-- Witness for C7 at the vector `[1.0f]` and the matrix
`[[1.0f, 0.0f], [0.0f, 2.0f]]`. -/
theorem C7_witness :
    ((⟨true, 1, 1, List.replicate 20 0, [1, 0, 0, 0, 0, 0, 128, 63, 1]⟩ :
        ArchivedVector).indexes.length
          = (svbEncode ((nzPairsFrom 0 [1065353216]).map (fun q => q.1 % U32))).length
            + STREAMVBYTE_PADDING
      ∧ (⟨true, 1, 1, List.replicate 20 0, [1, 0, 0, 0, 0, 0, 128, 63, 1]⟩ :
        ArchivedVector).values.length
          = (fpzipHeader 0 (nzPairsFrom 0 [1065353216]).length).length
            + (fpzipPayload 0 ((nzPairsFrom 0 [1065353216]).map Prod.snd)).length)
    ∧ ((⟨true, 2, 2, 2, [0, 0, 0, 0, 3, 0, 0, 0] ++ List.replicate 16 0,
        [2, 0, 0, 0, 0, 0, 128, 63, 0, 0, 0, 64, 1]⟩ : ArchivedMatrix).indexes.length
          = (svbEncode ((csrPairs ⟨2, 2, [1065353216, 0, 0, 1073741824]⟩).map
              (fun q => q.1 % U32))).length + STREAMVBYTE_PADDING
      ∧ (⟨true, 2, 2, 2, [0, 0, 0, 0, 3, 0, 0, 0] ++ List.replicate 16 0,
        [2, 0, 0, 0, 0, 0, 128, 63, 0, 0, 0, 64, 1]⟩ : ArchivedMatrix).values.length
          = (fpzipHeader 0 (csrPairs ⟨2, 2, [1065353216, 0, 0, 1073741824]⟩).length).length
            + (fpzipPayload 0 ((csrPairs ⟨2, 2, [1065353216, 0, 0, 1073741824]⟩).map
                Prod.snd)).length) :=
  ⟨C7_codec_reported_lengths.1 [1065353216] 0 _ (by decide) rfl,
   C7_codec_reported_lengths.2 ⟨2, 2, [1065353216, 0, 0, 1073741824]⟩ 0 _ (by decide)⟩

/-- C8, counterexample: the index codec adapter performs no zero-length
check.  With a codec whose encode reports zero bytes for the nonempty
index list `[5]`, `CompressIndexes` still succeeds (returning the bare
padding) instead of raising `CodecError`. -/
theorem C8_counterexample :
    CompressIndexesWith (fun _ => []) [5]
        = .ok (List.replicate STREAMVBYTE_PADDING 0, STREAMVBYTE_PADDING)
      ∧ ((fun _ : List Nat => ([] : List Nat)) [5]).length = 0
      ∧ ([5] : List Nat) ≠ [] :=
  ⟨rfl, rfl, by decide⟩

/-- C8 (amended): only the value codec adapter turns a zero-length codec
report (header or payload) into `CodecError`; the index codec adapter has
no such check and succeeds for every codec and every input. -/
theorem C8_zero_length_encode_error :
    (∀ (hdrF : Int → Nat → List Nat) (dataF : Int → List Nat → List Nat)
        (vs : List Nat) (p : Int),
      ((hdrF p vs.length).length = 0 ∨ (dataF p vs).length = 0) →
        CompressValuesWith hdrF dataF vs p = .error .codecError)
    ∧ (∀ (enc : List Nat → List Nat) (xs : List Nat),
        (CompressIndexesWith enc xs).isOk = true) := by
  constructor
  · intro hdrF dataF vs p h
    rcases h with h | h
    · simp [CompressValuesWith, h]
    · by_cases h0 : (hdrF p vs.length).length = 0
      · simp [CompressValuesWith, h0]
      · simp [CompressValuesWith, h0, h]
  · intro enc xs
    rfl

/-- Witness for C8: a header codec reporting zero bytes on the nonempty
value list `[3]` raises `CodecError`; a zero-reporting index codec on the
nonempty index list `[3]` still succeeds. -/
theorem C8_witness :
    CompressValuesWith (fun _ _ => []) (fun _ vs => vs) [3] 0 = .error .codecError
      ∧ (CompressIndexesWith (fun _ => []) [3]).isOk = true :=
  ⟨C8_zero_length_encode_error.1 (fun _ _ => []) (fun _ vs => vs) [3] 0 (Or.inl rfl),
   C8_zero_length_encode_error.2 (fun _ => []) [3]⟩

/-- C9: the specific 4×4 matrix `[[1,0,0,2],[0,0,3,0],[0,4,0,0],[0,0,0,5]]`
(entries given as IEEE single bit patterns), compressed at lossless
precision 0 and decompressed — through the zero-filled `rows × cols`
allocation and the `(index / cols, index % cols)` scatter of
`ConvertFromCSR` — yields the identical matrix. -/
theorem C9_matrix_round_trip :
    (CompressMatrix ⟨4, 4, [1065353216, 0, 0, 1073741824,
        0, 0, 1077936128, 0, 0, 1082130432, 0, 0, 0, 0, 0, 1084227584]⟩ 0).bind
      DecompressMatrix
      = .ok ⟨4, 4, [1065353216, 0, 0, 1073741824,
        0, 0, 1077936128, 0, 0, 1082130432, 0, 0, 0, 0, 0, 1084227584]⟩ := by
  decide

/-- C10: for every archive produced by compression, every index decoded
during decompression is strictly below the stored `original_length`
(vector) resp. `row_count * col_count` (matrix), and the matrix scatter
coordinates `(index / cols, index % cols)` are within the allocated
dimensions, so the unguarded scatter writes stay in bounds. -/
theorem C10_decoded_indexes_in_bounds :
    (∀ (v : List Nat) (p : Int) (a : ArchivedVector), CompressVector v p = .ok a →
      a.is_valid = true →
      (DecompressIndexes a.indexes a.nonzero).Forall (fun x => x < a.size))
    ∧ (∀ (m : Mat) (p : Int) (b : ArchivedMatrix), CompressMatrix m p = .ok b →
        (DecompressIndexes b.indexes b.nonzero).Forall (fun x =>
          x < b.rows_number * b.cols_number
            ∧ x / b.cols_number < b.rows_number
            ∧ x % b.cols_number < b.cols_number)) := by
  constructor
  · intro v p a h hvalid
    by_cases h0 : v.length = 0
    · rw [CompressVector_sentinel v p (Or.inl h0)] at h
      simp only [Except.ok.injEq] at h
      subst h
      simp at hvalid
    · by_cases h1 : nonZeros v = 0
      · rw [CompressVector_sentinel v p (Or.inr h1)] at h
        simp only [Except.ok.injEq] at h
        subst h
        simp at hvalid
      · rw [CompressVector_ok v p h0 h1] at h
        simp only [Except.ok.injEq] at h
        subst h
        show (DecompressIndexes (svbEncode ((nzPairsFrom 0 v).map (fun q => q.1 % U32))
            ++ List.replicate STREAMVBYTE_PADDING 0)
            (nzPairsFrom 0 v).length).Forall (fun x => x < v.length)
        have hidxlt : ∀ y ∈ (nzPairsFrom 0 v).map (fun q => q.1 % U32), y < U32 := by
          intro y hy
          simp only [List.mem_map] at hy
          obtain ⟨q, _, rfl⟩ := hy
          exact Nat.mod_lt _ (by norm_num [U32])
        have hrt := DecompressIndexes_roundtrip
          ((nzPairsFrom 0 v).map (fun q => q.1 % U32)) hidxlt
        rw [List.length_map] at hrt
        rw [hrt, List.forall_iff_forall_mem]
        intro x hx
        simp only [List.mem_map] at hx
        obtain ⟨q, hq, rfl⟩ := hx
        have hb := (nzPairsFrom_fst_bounds v 0 q hq).2
        have hm : q.1 % U32 ≤ q.1 := Nat.mod_le _ _
        omega
  · intro m p b h
    by_cases hr : m.rows = 0
    · rw [CompressMatrix_err m p (Or.inl hr)] at h
      exact Except.noConfusion h
    · by_cases hc : m.cols = 0
      · rw [CompressMatrix_err m p (Or.inr hc)] at h
        exact Except.noConfusion h
      · rw [CompressMatrix_ok m p hr hc] at h
        simp only [Except.ok.injEq] at h
        subst h
        show (DecompressIndexes (svbEncode ((csrPairs m).map (fun q => q.1 % U32))
            ++ List.replicate STREAMVBYTE_PADDING 0)
            (csrPairs m).length).Forall (fun x =>
              x < m.rows * m.cols ∧ x / m.cols < m.rows ∧ x % m.cols < m.cols)
        have hidxlt : ∀ y ∈ (csrPairs m).map (fun q => q.1 % U32), y < U32 := by
          intro y hy
          simp only [List.mem_map] at hy
          obtain ⟨q, _, rfl⟩ := hy
          exact Nat.mod_lt _ (by norm_num [U32])
        have hrt := DecompressIndexes_roundtrip
          ((csrPairs m).map (fun q => q.1 % U32)) hidxlt
        rw [List.length_map] at hrt
        rw [hrt, List.forall_iff_forall_mem]
        intro x hx
        simp only [List.mem_map] at hx
        obtain ⟨q, hq, rfl⟩ := hx
        have hb := csrPairs_fst_lt m q hq
        have hm : q.1 % U32 ≤ q.1 := Nat.mod_le _ _
        have hc0 : 0 < m.cols := Nat.pos_of_ne_zero hc
        have hx1 : q.1 % U32 < m.rows * m.cols := by omega
        refine ⟨hx1, ?_, Nat.mod_lt _ hc0⟩
        exact (Nat.div_lt_iff_lt_mul hc0).2 hx1

/-! ### C6: the converter contract and the `uint32_t` index truncation -/

lemma getD_replicate_zero (n k : Nat) : (List.replicate n (0 : Nat)).getD k 0 = 0 := by
  rw [List.getD_eq_getElem?_getD, List.getElem?_replicate]
  split <;> simp

lemma filterMap_range_eq_nil {β : Type} (g : Nat → Option β) (n : Nat)
    (h : ∀ j, j < n → g j = none) : (List.range n).filterMap g = [] := by
  rw [List.filterMap_eq_nil_iff]
  intro a ha
  exact h a (List.mem_range.1 ha)

lemma filterMap_range_single {β : Type} (g : Nat → Option β) (n k : Nat) (hk : k < n)
    (h : ∀ j, j ≠ k → g j = none) :
    (List.range n).filterMap g = (g k).toList := by
  induction n with
  | zero => omega
  | succ n ih =>
    rw [List.range_succ, List.filterMap_append]
    by_cases hkn : k = n
    · subst hkn
      rw [filterMap_range_eq_nil g k (fun j hj => h j (by omega))]
      cases hg : g k <;> simp [List.filterMap_cons, hg]
    · have hkn2 : k < n := by omega
      have hn : g n = none := h n (fun hcon => hkn hcon.symm)
      rw [ih hkn2]
      simp [List.filterMap_cons, hn]

/-- A 3 × 2^31 dense matrix whose single nonzero entry (pattern of `1.0f`)
sits at linear offset `2 * 2^31 + 2 = 2^32 + 2`, which overflows
`uint32_t`. -/
def bigEntries : List Nat :=
  List.replicate 4294967298 0 ++ 1065353216 :: List.replicate 2147483645 0

/-- The 3 × 2^31 matrix over `bigEntries` (row-major, well-formed:
`4294967298 + 1 + 2147483645 = 3 * 2147483648`). -/
def bigM : Mat := ⟨3, 2147483648, bigEntries⟩

lemma bigEntries_getD_ne (p : Nat) (hp : p ≠ 4294967298) : bigEntries.getD p 0 = 0 := by
  by_cases h : p < 4294967298
  · have hlt : p < (List.replicate 4294967298 (0 : Nat)).length := by
      rw [List.length_replicate]
      exact h
    rw [bigEntries, List.getD_append _ _ _ _ hlt]
    exact getD_replicate_zero _ _
  · have h2 : (List.replicate 4294967298 (0 : Nat)).length ≤ p := by
      rw [List.length_replicate]
      omega
    rw [bigEntries, List.getD_append_right _ _ _ _ h2]
    have h3 : p - (List.replicate 4294967298 (0 : Nat)).length = (p - 4294967299) + 1 := by
      rw [List.length_replicate]
      omega
    rw [h3, List.getD_cons_succ]
    exact getD_replicate_zero _ _

lemma bigEntries_getD_eq : bigEntries.getD 4294967298 0 = 1065353216 := by
  have h2 : (List.replicate 4294967298 (0 : Nat)).length ≤ 4294967298 := by
    rw [List.length_replicate]
  rw [bigEntries, List.getD_append_right _ _ _ _ h2]
  have h3 : 4294967298 - (List.replicate 4294967298 (0 : Nat)).length = 0 := by
    rw [List.length_replicate]
  rw [h3, List.getD_cons_zero]

lemma bigM_entry (i j : Nat) : bigM.entry i j = bigEntries.getD (i * 2147483648 + j) 0 := rfl

lemma csrPairs_bigM : csrPairs bigM = [(4294967298, 1065353216)] := by
  show ((List.range 3).map (fun i =>
      (List.range 2147483648).filterMap (fun j =>
        if isZeroF (bigM.entry i j) then none
        else some (i * 2147483648 + j, bigM.entry i j)))).flatten
    = [(4294967298, 1065353216)]
  have hrange3 : List.range 3 = [0, 1, 2] := rfl
  rw [hrange3]
  simp only [List.map_cons, List.map_nil, List.flatten_cons, List.flatten_nil,
    List.append_nil]
  have h0 : (List.range 2147483648).filterMap (fun j =>
      if isZeroF (bigM.entry 0 j) then none
      else some (0 * 2147483648 + j, bigM.entry 0 j)) = [] := by
    apply filterMap_range_eq_nil
    intro j hj
    have he : bigM.entry 0 j = 0 := by
      rw [bigM_entry]
      exact bigEntries_getD_ne _ (by omega)
    simp [he, isZeroF]
  have h1 : (List.range 2147483648).filterMap (fun j =>
      if isZeroF (bigM.entry 1 j) then none
      else some (1 * 2147483648 + j, bigM.entry 1 j)) = [] := by
    apply filterMap_range_eq_nil
    intro j hj
    have he : bigM.entry 1 j = 0 := by
      rw [bigM_entry]
      exact bigEntries_getD_ne _ (by omega)
    simp [he, isZeroF]
  have he22 : bigM.entry 2 2 = 1065353216 := by
    have harith : (2 * 2147483648 + 2 : Nat) = 4294967298 := by norm_num
    rw [bigM_entry, harith]
    exact bigEntries_getD_eq
  have h2 : (List.range 2147483648).filterMap (fun j =>
      if isZeroF (bigM.entry 2 j) then none
      else some (2 * 2147483648 + j, bigM.entry 2 j)) = [(4294967298, 1065353216)] := by
    rw [filterMap_range_single (fun j =>
        if isZeroF (bigM.entry 2 j) then none
        else some (2 * 2147483648 + j, bigM.entry 2 j)) 2147483648 2 (by omega) ?hnone]
    case hnone =>
      intro j hj
      have he : bigM.entry 2 j = 0 := by
        rw [bigM_entry]
        exact bigEntries_getD_ne _ (by omega)
      simp [he, isZeroF]
    norm_num [he22, isZeroF, NEG_ZERO]
  rw [h0, h1, h2]
  simp

/-- C6, counterexample: the converter's indices do not always equal
`row * C + col`.  In the 3 × 2^31 matrix `bigM` the single nonzero entry
sits at `(row, col) = (2, 2)` with linear offset `2 * 2^31 + 2 = 2^32 + 2`,
but the produced index is `2` — the offset truncated by the
`static_cast<uint32_t>` — so the index is *not* the row-major offset of
the nonzero entry. -/
theorem C6_counterexample :
    ConvertToCSR bigM = .ok ([2], [1065353216])
      ∧ (2 : Nat) ≠ 2 * 2147483648 + 2 := by
  constructor
  · rw [ConvertToCSR_ok bigM (by decide) (by decide), csrPairs_bigM]
    simp [U32]
  · decide

/-- C6 (amended): for every dense matrix with nonzero dimensions whose
element count `R * C` is at most `2^32` (so the `uint32_t` cast of the
linear offsets is the identity), the converter yields two equal-length
sequences; the indices are strictly ascending; and the `(index, value)`
pairs are exactly `(row * C + col, value)` for the entries comparing
nonzero (exact IEEE test, no epsilon), scanned in row-major order. -/
theorem C6_converter_contract (m : Mat) (idx vals : List Nat)
    (hr : m.rows ≠ 0) (hc : m.cols ≠ 0)
    (hlen : m.entries.length = m.rows * m.cols)
    (hsize : m.rows * m.cols ≤ U32)
    (h : ConvertToCSR m = .ok (idx, vals)) :
    idx.length = vals.length
      ∧ List.Pairwise (fun a b => a < b) idx
      ∧ idx.zip vals = rowMajorNonzeroPairs m.rows m.cols m.entry := by
  rw [ConvertToCSR_ok m hr hc] at h
  simp only [Except.ok.injEq, Prod.mk.injEq] at h
  obtain ⟨hidx, hvals⟩ := h
  subst hidx
  subst hvals
  have hcast : (csrPairs m).map (fun p => p.1 % U32) = (csrPairs m).map Prod.fst := by
    apply List.map_congr_left
    intro q hq
    have hb := csrPairs_fst_lt m q hq
    have hu : U32 = 4294967296 := rfl
    apply Nat.mod_eq_of_lt
    omega
  refine ⟨by simp, ?_, ?_⟩
  · rw [hcast]
    have hp := nzPairsFrom_pairwise m.entries 0
    rw [← csrPairs_eq_nzPairs m hlen] at hp
    exact List.Pairwise.map Prod.fst (fun a b hab => hab) hp
  · rw [hcast, List.zip_map']
    have heta : (csrPairs m).map (fun q => (q.1, q.2)) = csrPairs m := by simp
    rw [heta]
    rfl

/-- Witness for C6 at the 2×2 matrix `[[1.0f, 0.0f], [0.0f, 2.0f]]`. -/
theorem C6_witness :
    ([0, 3] : List Nat).length = ([1065353216, 1073741824] : List Nat).length
      ∧ List.Pairwise (fun a b => a < b) ([0, 3] : List Nat)
      ∧ ([0, 3] : List Nat).zip [1065353216, 1073741824]
          = rowMajorNonzeroPairs 2 2 (Mat.entry ⟨2, 2, [1065353216, 0, 0, 1073741824]⟩) :=
  C6_converter_contract ⟨2, 2, [1065353216, 0, 0, 1073741824]⟩ [0, 3]
    [1065353216, 1073741824] (by decide) (by decide) (by decide) (by decide) (by decide)

/-- Witness for C10 at the vector `[1.0f, 0.0f]` and the matrix
`[[1.0f, 0.0f], [0.0f, 2.0f]]`. -/
theorem C10_witness :
    (DecompressIndexes (List.replicate 20 0) 1).Forall (fun x => x < 2)
      ∧ (DecompressIndexes ([0, 0, 0, 0, 3, 0, 0, 0] ++ List.replicate 16 0) 2).Forall
          (fun x => x < 2 * 2 ∧ x / 2 < 2 ∧ x % 2 < 2) :=
  ⟨C10_decoded_indexes_in_bounds.1 [1065353216, 0] 0
      ⟨true, 1, 2, List.replicate 20 0, [1, 0, 0, 0, 0, 0, 128, 63, 1]⟩ (by decide) rfl,
   C10_decoded_indexes_in_bounds.2 ⟨2, 2, [1065353216, 0, 0, 1073741824]⟩ 0
      ⟨true, 2, 2, 2, [0, 0, 0, 0, 3, 0, 0, 0] ++ List.replicate 16 0,
        [2, 0, 0, 0, 0, 0, 128, 63, 0, 0, 0, 64, 1]⟩ (by decide)⟩

end MatrixCompressor
